import Mathlib

set_option maxRecDepth 40000

/-
Verification development for the two text-transformation scripts of the
NewCurbeIO repository: fix_routes.py (whole-text pattern rules applied to a
route file) and update_routes.py (a stateful line-oriented scanner).

Modelling conventions, all translated from the Python source:
  - text is a list of characters (a Lean String wraps exactly that);
  - Python substring containment (the in operator) is hasSub;
  - Python str.replace is replaceAllL (leftmost, non-overlapping);
  - the regex passes re.sub of the shape (literal\s*)+ -> replacement are
    subRun, which munches maximal greedy runs exactly as the regex engine
    does for these patterns (each literal begins with a non-whitespace
    character, so no backtracking can occur);
  - the scan loop of update_routes.py is scanGo; a Python IndexError from
    the lookahead is modelled by the Option none result;
  - recursion that consumes a non-constant amount of input per step is
    implemented with a fuel parameter equal to the input length, keeping
    every definition structurally recursive and computable by the kernel.
-/

/-- Whitespace test used by the regex class \s on Python 3 str patterns:
ASCII whitespace plus the Unicode whitespace code points. -/
def isWs (c : Char) : Bool :=
  c = ' ' || c = '\t' || c = '\n' || c = '\r' || c = '\x0b' || c = '\x0c' ||
  c = '\x1c' || c = '\x1d' || c = '\x1e' || c = '\x1f' || c = '\x85' ||
  c = '\xa0' || c = '\u1680' || ('\u2000' ≤ c && c ≤ '\u200a') ||
  c = '\u2028' || c = '\u2029' || c = '\u202f' || c = '\u205f' || c = '\u3000'

/-- Strip the literal p from the front of s, returning the remainder if s
starts with p. -/
def dropLit : List Char → List Char → Option (List Char)
  | [], s => some s
  | _ :: _, [] => none
  | c :: cs, d :: ds => if c = d then dropLit cs ds else none

/-- Substring containment: the Python expression p in s on strings. -/
def hasSub (p : List Char) : List Char → Bool
  | [] => (dropLit p []).isSome
  | c :: rest => (dropLit p (c :: rest)).isSome || hasSub p rest

theorem dropLit_len {p s r : List Char} (h : dropLit p s = some r) :
    s.length = p.length + r.length := by
  induction p generalizing s with
  | nil =>
    simp only [dropLit, Option.some.injEq] at h
    subst h; simp
  | cons c cs ih =>
    cases s with
    | nil => simp [dropLit] at h
    | cons d ds =>
      simp only [dropLit] at h
      split at h
      · have := ih h
        simp only [List.length_cons, this]
        omega
      · exact absurd h (by simp)

theorem dropLit_self_append (p t : List Char) : dropLit p (p ++ t) = some t := by
  induction p with
  | nil => rfl
  | cons c cs ih => simp [dropLit, ih]

theorem dropLit_eq_append {p s r : List Char} (h : dropLit p s = some r) :
    s = p ++ r := by
  induction p generalizing s with
  | nil =>
    simp only [dropLit, Option.some.injEq] at h
    simp [h]
  | cons c cs ih =>
    cases s with
    | nil => simp [dropLit] at h
    | cons d ds =>
      simp only [dropLit] at h
      split at h
      · rename_i hcd
        simp [← hcd, ih h]
      · exact absurd h (by simp)

theorem dropLit_of_append {x y z r : List Char} (h : dropLit x (y ++ z) = some r)
    (hl : x.length ≤ y.length) : (dropLit x y).isSome := by
  induction x generalizing y with
  | nil => simp [dropLit]
  | cons c cs ih =>
    cases y with
    | nil => simp at hl
    | cons d ds =>
      simp only [List.cons_append, dropLit] at h ⊢
      split at h
      · rename_i hcd
        rw [if_pos hcd]
        exact ih h (by simpa using hl)
      · exact absurd h (by simp)

theorem hasSub_of_dropLit {p s : List Char} (h : (dropLit p s).isSome) :
    hasSub p s = true := by
  cases s <;> simp [hasSub, h]

theorem hasSub_append_right {p t : List Char} (x : List Char)
    (h : hasSub p t = true) : hasSub p (x ++ t) = true := by
  induction x with
  | nil => simpa
  | cons c cs ih =>
    simp only [List.cons_append, hasSub]
    rw [show cs.append t = cs ++ t from rfl, ih]
    simp

theorem hasSub_cons_false {p : List Char} {c : Char} {rest : List Char}
    (h : hasSub p (c :: rest) = false) :
    dropLit p (c :: rest) = none ∧ hasSub p rest = false := by
  simp only [hasSub, Bool.or_eq_false_iff] at h
  exact ⟨Option.not_isSome_iff_eq_none.mp (by simp [h.1]), h.2⟩

theorem dropWhile_len_le (p : Char → Bool) (l : List Char) :
    (l.dropWhile p).length ≤ l.length := by
  induction l with
  | nil => simp
  | cons c cs ih =>
    rw [List.dropWhile_cons]
    split
    · exact Nat.le_succ_of_le ih
    · simp

theorem dropWhile_idem (p : Char → Bool) (l : List Char) :
    (l.dropWhile p).dropWhile p = l.dropWhile p := by
  induction l with
  | nil => simp
  | cons c cs ih =>
    rw [List.dropWhile_cons]
    split
    · exact ih
    · rename_i hc
      rw [List.dropWhile_cons, if_neg hc]

theorem dropWhile_cons_self {p : Char → Bool} {c : Char} {t : List Char}
    (h : (c :: t).dropWhile p = c :: t) : p c = false := by
  by_contra hc
  rw [List.dropWhile_cons, if_pos (by revert hc; cases p c <;> simp)] at h
  have := congrArg List.length h
  have hle := dropWhile_len_le p t
  simp at this
  omega

theorem dropWhile_append_ws {u : List Char} (v : List Char)
    (hu : ∀ c ∈ u, isWs c = true) :
    (u ++ v).dropWhile isWs = v.dropWhile isWs := by
  induction u with
  | nil => rfl
  | cons c cs ih =>
    rw [List.cons_append, List.dropWhile_cons, if_pos (hu c (by simp))]
    exact ih fun d hd => hu d (by simp [hd])

/-- Leftmost non-overlapping replacement of every occurrence of the literal
a :: pa by rep: the semantics of Python str.replace for a non-empty literal,
translated from the calls in both scripts.  The fuel argument is the input
length; it only makes the recursion structural. -/
def replaceAllF (a : Char) (pa rep : List Char) : Nat → List Char → List Char
  | 0, s => s
  | _ + 1, [] => []
  | f + 1, c :: rest =>
    match dropLit (a :: pa) (c :: rest) with
    | some r => rep ++ replaceAllF a pa rep f r
    | none => c :: replaceAllF a pa rep f rest

/-- Python str.replace on character lists, for a non-empty pattern. -/
def replaceAllL (a : Char) (pa rep s : List Char) : List Char :=
  replaceAllF a pa rep s.length s

theorem replaceAllL_no_occ (a : Char) (pa rep : List Char) :
    ∀ s : List Char, hasSub (a :: pa) s = false → replaceAllL a pa rep s = s := by
  intro s
  induction s with
  | nil => intro _; rfl
  | cons c rest ih =>
    intro h
    obtain ⟨h1, h2⟩ := hasSub_cons_false h
    simp only [replaceAllL, List.length_cons, replaceAllF, h1]
    exact congrArg (c :: ·) (ih h2)

/-- Python str.replace lifted to String, for the concrete non-empty patterns
of the source; the empty-pattern branch is unreachable for those. -/
def strRepl (pat rep t : String) : String :=
  match pat.data with
  | [] => t
  | a :: pa => String.mk (replaceAllL a pa rep.data t.data)

/-- Substring containment on String: the Python in operator. -/
def hasSubS (p s : String) : Bool := hasSub p.data s.data

/-- One greedy munch of the regex (lit\s*)+ with lit = a :: as at the front
of s: strip the literal, drop all following whitespace, repeat while the
literal keeps matching; the result is the remainder after the maximal run,
or none when the literal does not match at the front.  Nothing follows the
plus in the source patterns and each literal starts with a non-whitespace
character, so this is exactly the match the Python regex engine commits to.
Fuel equal to the input length suffices. -/
def munchRunF (a : Char) (as : List Char) : Nat → List Char → Option (List Char)
  | 0, _ => none
  | f + 1, s =>
    (dropLit (a :: as) s).map fun r =>
      (munchRunF a as f (r.dropWhile isWs)).getD (r.dropWhile isWs)

/-- Maximal greedy run munch, with fuel instantiated adequately. -/
def munchRun (a : Char) (as s : List Char) : Option (List Char) :=
  munchRunF a as s.length s

theorem munchRunF_fuel_aux (a : Char) (as : List Char) :
    ∀ (b : Nat) (s : List Char) (f : Nat), s.length ≤ b → s.length ≤ f →
      munchRunF a as f s = munchRun a as s := by
  intro b
  induction b with
  | zero =>
    intro s f hb _
    have hnil : s = [] := List.length_eq_zero.mp (Nat.le_zero.mp hb)
    subst hnil
    cases f <;> rfl
  | succ b ih =>
    intro s f hb hf
    cases s with
    | nil => cases f <;> rfl
    | cons c rest =>
      cases f with
      | zero => simp at hf
      | succ f =>
        simp only [munchRun, List.length_cons, munchRunF]
        cases hd : dropLit (a :: as) (c :: rest) with
        | none => rfl
        | some r =>
          have hr : r.length ≤ rest.length := by
            have := dropLit_len hd
            simp only [List.length_cons] at this
            omega
          have hrw : (r.dropWhile isWs).length ≤ rest.length :=
            le_trans (dropWhile_len_le _ _) hr
          simp only [List.length_cons] at hb hf
          simp only [Option.map_some']
          rw [ih (r.dropWhile isWs) f (by omega) (by omega),
            ih (r.dropWhile isWs) rest.length (by omega) hrw]

theorem munchRun_fuel (a : Char) (as s : List Char) (f : Nat) (hf : s.length ≤ f) :
    munchRunF a as f s = munchRun a as s :=
  munchRunF_fuel_aux a as s.length s f (le_refl _) hf

theorem munchRun_eq (a : Char) (as s : List Char) :
    munchRun a as s = (dropLit (a :: as) s).map fun r =>
      (munchRun a as (r.dropWhile isWs)).getD (r.dropWhile isWs) := by
  cases s with
  | nil => rfl
  | cons c rest =>
    show munchRunF a as (rest.length + 1) (c :: rest) = _
    simp only [munchRunF]
    cases hd : dropLit (a :: as) (c :: rest) with
    | none => rfl
    | some r =>
      have hrw : (r.dropWhile isWs).length ≤ rest.length := by
        have := dropLit_len hd
        simp only [List.length_cons] at this
        exact le_trans (dropWhile_len_le _ _) (by omega)
      simp only [Option.map_some']
      rw [munchRun_fuel a as _ rest.length hrw]

theorem munchRun_none_iff (a : Char) (as s : List Char) :
    munchRun a as s = none ↔ dropLit (a :: as) s = none := by
  rw [munchRun_eq]
  cases hd : dropLit (a :: as) s <;> simp

theorem munchRun_of_dropLit_some {a : Char} {as s r : List Char}
    (hd : dropLit (a :: as) s = some r)
    (hm : munchRun a as (r.dropWhile isWs) = none) :
    munchRun a as s = some (r.dropWhile isWs) := by
  rw [munchRun_eq]
  simp only [hd, hm, Option.map_some', Option.getD_none]

theorem munchRunF_some_len (a : Char) (as : List Char) :
    ∀ (f : Nat) (s r : List Char), munchRunF a as f s = some r →
      r.length < s.length := by
  intro f
  induction f with
  | zero => intro s r h; simp [munchRunF] at h
  | succ f ih =>
    intro s r h
    simp only [munchRunF] at h
    cases hd : dropLit (a :: as) s with
    | none => rw [hd] at h; simp at h
    | some r1 =>
      rw [hd] at h
      simp only [Option.map_some', Option.some.injEq] at h
      have h1 : r1.length < s.length := by
        have := dropLit_len hd
        simp only [List.length_cons] at this
        omega
      have hw : (r1.dropWhile isWs).length ≤ r1.length := dropWhile_len_le _ _
      cases hm : munchRunF a as f (r1.dropWhile isWs) with
      | none =>
        rw [hm] at h
        simp only [Option.getD_none] at h
        subst h
        omega
      | some r2 =>
        rw [hm] at h
        simp only [Option.getD_some] at h
        subst h
        have := ih _ _ hm
        omega

theorem munchRun_some_len {a : Char} {as s r : List Char}
    (h : munchRun a as s = some r) : r.length < s.length :=
  munchRunF_some_len a as s.length s r h

theorem munchRunF_some_inv (a : Char) (as : List Char) :
    ∀ (f : Nat) (s r : List Char), s.length ≤ f → munchRunF a as f s = some r →
      dropLit (a :: as) r = none ∧ r.dropWhile isWs = r := by
  intro f
  induction f with
  | zero => intro s r _ h; simp [munchRunF] at h
  | succ f ih =>
    intro s r hf h
    simp only [munchRunF] at h
    cases hd : dropLit (a :: as) s with
    | none => rw [hd] at h; simp at h
    | some r1 =>
      rw [hd] at h
      simp only [Option.map_some', Option.some.injEq] at h
      have h1 : r1.length < s.length := by
        have := dropLit_len hd
        simp only [List.length_cons] at this
        omega
      have hw : (r1.dropWhile isWs).length ≤ r1.length := dropWhile_len_le _ _
      cases hm : munchRunF a as f (r1.dropWhile isWs) with
      | none =>
        rw [hm] at h
        simp only [Option.getD_none] at h
        subst h
        constructor
        · have hmr : munchRun a as (r1.dropWhile isWs) = none := by
            rw [← munchRun_fuel a as _ f (by omega)]
            exact hm
          exact (munchRun_none_iff a as _).mp hmr
        · exact dropWhile_idem isWs r1
      | some r2 =>
        rw [hm] at h
        simp only [Option.getD_some] at h
        subst h
        exact ih _ _ (by omega) hm

theorem munchRun_some_inv {a : Char} {as s r : List Char}
    (h : munchRun a as s = some r) :
    dropLit (a :: as) r = none ∧ r.dropWhile isWs = r :=
  munchRunF_some_inv a as s.length s r (le_refl _) h

/-- One full left-to-right pass of re.sub for a pattern (lit\s*)+ with
lit = a :: as and replacement rep: at every position try the greedy munch;
on a match emit rep and continue right after the matched run (matches do
not overlap), otherwise copy one character and move on.  Translated from
the three re.sub calls of fix_routes.py.  Fuel = input length. -/
def subRunF (a : Char) (as rep : List Char) : Nat → List Char → List Char
  | 0, s => s
  | _ + 1, [] => []
  | f + 1, c :: rest =>
    match munchRun a as (c :: rest) with
    | some r => rep ++ subRunF a as rep f r
    | none => c :: subRunF a as rep f rest

/-- Whole-text collapse pass, fuel instantiated adequately. -/
def subRun (a : Char) (as rep s : List Char) : List Char :=
  subRunF a as rep s.length s

theorem subRunF_fuel_aux (a : Char) (as rep : List Char) :
    ∀ (b : Nat) (s : List Char) (f : Nat), s.length ≤ b → s.length ≤ f →
      subRunF a as rep f s = subRun a as rep s := by
  intro b
  induction b with
  | zero =>
    intro s f hb _
    have hnil : s = [] := List.length_eq_zero.mp (Nat.le_zero.mp hb)
    subst hnil
    cases f <;> rfl
  | succ b ih =>
    intro s f hb hf
    cases s with
    | nil => cases f <;> rfl
    | cons c rest =>
      cases f with
      | zero => simp at hf
      | succ f =>
        simp only [List.length_cons] at hb hf
        cases hm : munchRun a as (c :: rest) with
        | some r =>
          have hr : r.length < rest.length + 1 := munchRun_some_len hm
          simp only [subRun, List.length_cons, subRunF, hm]
          rw [ih r f (by omega) (by omega), ih r rest.length (by omega) (by omega)]
        | none =>
          simp only [subRun, List.length_cons, subRunF, hm]
          rw [ih rest f (by omega) (by omega),
            ih rest rest.length (by omega) (le_refl _)]

theorem subRun_fuel (a : Char) (as rep s : List Char) (f : Nat)
    (hf : s.length ≤ f) : subRunF a as rep f s = subRun a as rep s :=
  subRunF_fuel_aux a as rep s.length s f (le_refl _) hf

theorem subRun_nil (a : Char) (as rep : List Char) : subRun a as rep [] = [] := rfl

theorem subRun_pos {a : Char} {as s r : List Char} (rep : List Char)
    (h : munchRun a as s = some r) :
    subRun a as rep s = rep ++ subRun a as rep r := by
  cases s with
  | nil => simp [munchRun, munchRunF] at h
  | cons c rest =>
    have hr : r.length ≤ rest.length := by
      have := munchRun_some_len h
      simp only [List.length_cons] at this
      omega
    simp only [subRun, List.length_cons, subRunF, h]
    rw [subRun_fuel a as rep r rest.length hr]
    rfl

theorem subRun_neg {a : Char} {as : List Char} {c : Char} {rest : List Char}
    (rep : List Char) (h : munchRun a as (c :: rest) = none) :
    subRun a as rep (c :: rest) = c :: subRun a as rep rest := by
  simp only [subRun, List.length_cons, subRunF, h]

theorem subRun_dropWhile_self {a : Char} {as r : List Char} (rep : List Char)
    (hnone : munchRun a as r = none) (hself : r.dropWhile isWs = r) :
    (subRun a as rep r).dropWhile isWs = subRun a as rep r := by
  cases r with
  | nil => simp [subRun_nil]
  | cons c rest =>
    rw [subRun_neg rep hnone]
    have hc : isWs c = false := dropWhile_cons_self hself
    rw [List.dropWhile_cons, if_neg (by simp [hc])]

theorem subRun_no_new (a : Char) (as ws : List Char)
    (hbf : ∀ q, q < (a :: as).length → 0 < q →
      dropLit ((a :: as).drop q) (a :: as) = none) :
    ∀ (b : Nat) (s : List Char), s.length ≤ b → ∀ q, q < (a :: as).length →
      (dropLit ((a :: as).drop q) (subRun a as ((a :: as) ++ ws) s)).isSome →
      (dropLit ((a :: as).drop q) s).isSome := by
  intro b
  induction b with
  | zero =>
    intro s hb q hq hsome
    have hnil : s = [] := List.length_eq_zero.mp (Nat.le_zero.mp hb)
    subst hnil
    rw [subRun_nil] at hsome
    have hlen : 0 < ((a :: as).drop q).length := by
      rw [List.length_drop]
      simp only [List.length_cons] at hq ⊢
      omega
    cases hq1 : (a :: as).drop q with
    | nil => rw [hq1] at hlen; simp at hlen
    | cons x xs => rw [hq1] at hsome; simp [dropLit] at hsome
  | succ b ih =>
    intro s hb q hq hsome
    cases hm : munchRun a as s with
    | some r =>
      rw [subRun_pos _ hm] at hsome
      obtain ⟨r0, hr0⟩ := Option.isSome_iff_exists.mp hsome
      have hl1 : ((a :: as).drop q).length ≤ ((a :: as) ++ ws).length := by
        rw [List.length_drop, List.length_append]
        omega
      have h2 := dropLit_of_append hr0 hl1
      obtain ⟨r1, hr1⟩ := Option.isSome_iff_exists.mp h2
      have hl2 : ((a :: as).drop q).length ≤ (a :: as).length := by
        rw [List.length_drop]
        omega
      have h3 := dropLit_of_append hr1 hl2
      cases q with
      | zero =>
        simp only [List.drop_zero]
        have hne : dropLit (a :: as) s ≠ none := by
          intro hn
          rw [(munchRun_none_iff a as s).mpr hn] at hm
          exact absurd hm (by simp)
        exact Option.ne_none_iff_isSome.mp hne
      | succ q' =>
        rw [hbf (q' + 1) hq (Nat.succ_pos _)] at h3
        simp at h3
    | none =>
      cases s with
      | nil =>
        rw [subRun_nil] at hsome
        have hlen : 0 < ((a :: as).drop q).length := by
          rw [List.length_drop]
          simp only [List.length_cons] at hq ⊢
          omega
        cases hq1 : (a :: as).drop q with
        | nil => rw [hq1] at hlen; simp at hlen
        | cons x xs => rw [hq1] at hsome; simp [dropLit] at hsome
      | cons c rest =>
        rw [subRun_neg _ hm] at hsome
        have hlen : 0 < ((a :: as).drop q).length := by
          rw [List.length_drop]
          simp only [List.length_cons] at hq ⊢
          omega
        cases hq1 : (a :: as).drop q with
        | nil => rw [hq1] at hlen; simp at hlen
        | cons x xs =>
          rw [hq1] at hsome
          simp only [dropLit] at hsome
          by_cases hxc : x = c
          · rw [if_pos hxc] at hsome
            have hxs : (a :: as).drop (q + 1) = xs := by
              have h5 := congrArg (List.drop 1) hq1
              rw [List.drop_drop] at h5
              simpa [Nat.add_comm] using h5
            by_cases hq2 : q + 1 < (a :: as).length
            · have hrec : (dropLit ((a :: as).drop (q + 1))
                  (subRun a as ((a :: as) ++ ws) rest)).isSome := by
                rw [hxs]
                exact hsome
              have hres := ih rest
                (by simp only [List.length_cons] at hb; omega) (q + 1) hq2 hrec
              simp only [dropLit, if_pos hxc]
              rw [← hxs]
              exact hres
            · have hxsnil : xs = [] := by
                have h6 : ((a :: as).drop (q + 1)).length = 0 := by
                  rw [List.length_drop]
                  omega
                rw [hxs] at h6
                exact List.length_eq_zero.mp h6
              subst hxsnil
              simp [dropLit, if_pos hxc]
          · rw [if_neg hxc] at hsome
            simp at hsome

theorem subRun_idem_aux (a : Char) (as ws : List Char)
    (hws : ∀ c ∈ ws, isWs c = true)
    (hbf : ∀ q, q < (a :: as).length → 0 < q →
      dropLit ((a :: as).drop q) (a :: as) = none) :
    ∀ (b : Nat) (s : List Char), s.length ≤ b →
      subRun a as ((a :: as) ++ ws) (subRun a as ((a :: as) ++ ws) s) =
        subRun a as ((a :: as) ++ ws) s := by
  intro b
  induction b with
  | zero =>
    intro s hb
    have hnil : s = [] := List.length_eq_zero.mp (Nat.le_zero.mp hb)
    subst hnil
    rw [subRun_nil, subRun_nil]
  | succ b ih =>
    intro s hb
    cases hm : munchRun a as s with
    | some r =>
      have hlen := munchRun_some_len hm
      obtain ⟨hdl, hdw⟩ := munchRun_some_inv hm
      rw [subRun_pos _ hm]
      have hmr : munchRun a as r = none := (munchRun_none_iff a as r).mpr hdl
      have hsub_self : (subRun a as ((a :: as) ++ ws) r).dropWhile isWs =
          subRun a as ((a :: as) ++ ws) r :=
        subRun_dropWhile_self _ hmr hdw
      have hnonew : dropLit (a :: as) (subRun a as ((a :: as) ++ ws) r) = none := by
        by_contra hne
        have hs := Option.ne_none_iff_isSome.mp hne
        have h0 := subRun_no_new a as ws hbf r.length r (le_refl _) 0
          (Nat.succ_pos _) (by simpa using hs)
        simp only [List.drop_zero] at h0
        rw [hdl] at h0
        simp at h0
      have hmn : munchRun a as (subRun a as ((a :: as) ++ ws) r) = none :=
        (munchRun_none_iff a as _).mpr hnonew
      have hd1 : dropLit (a :: as)
          (((a :: as) ++ ws) ++ subRun a as ((a :: as) ++ ws) r) =
          some (ws ++ subRun a as ((a :: as) ++ ws) r) := by
        rw [List.append_assoc]
        exact dropLit_self_append _ _
      have hd2 : (ws ++ subRun a as ((a :: as) ++ ws) r).dropWhile isWs =
          subRun a as ((a :: as) ++ ws) r := by
        rw [dropWhile_append_ws _ hws, hsub_self]
      have hmunch : munchRun a as
          (((a :: as) ++ ws) ++ subRun a as ((a :: as) ++ ws) r) =
          some (subRun a as ((a :: as) ++ ws) r) := by
        have hstep := munchRun_of_dropLit_some hd1 (by rw [hd2]; exact hmn)
        rw [hd2] at hstep
        exact hstep
      rw [subRun_pos _ hmunch]
      have hrb : r.length ≤ b := by omega
      rw [ih r hrb]
    | none =>
      cases s with
      | nil => rw [subRun_nil, subRun_nil]
      | cons c rest =>
        rw [subRun_neg _ hm]
        have hnonew : dropLit (a :: as)
            (c :: subRun a as ((a :: as) ++ ws) rest) = none := by
          by_contra hne
          have hs : (dropLit (a :: as)
              (subRun a as ((a :: as) ++ ws) (c :: rest))).isSome = true := by
            rw [subRun_neg _ hm]
            exact Option.ne_none_iff_isSome.mp hne
          have h0 := subRun_no_new a as ws hbf (c :: rest).length (c :: rest)
            (le_refl _) 0 (Nat.succ_pos _) (by simpa using hs)
          simp only [List.drop_zero] at h0
          rw [(munchRun_none_iff a as _).mp hm] at h0
          simp at h0
        have hm2 : munchRun a as (c :: subRun a as ((a :: as) ++ ws) rest) = none :=
          (munchRun_none_iff a as _).mpr hnonew
        rw [subRun_neg _ hm2]
        have hrb : rest.length ≤ b := by
          simp only [List.length_cons] at hb
          omega
        rw [ih rest hrb]

/-- Idempotence of one whole-text collapse pass, for a literal with no
non-trivial border and a replacement of the form literal ++ whitespace:
exactly the shape of the three re.sub rules of fix_routes.py. -/
theorem subRun_idempotent (a : Char) (as ws s : List Char)
    (hws : ∀ c ∈ ws, isWs c = true)
    (hbf : ∀ q, q < (a :: as).length → 0 < q →
      dropLit ((a :: as).drop q) (a :: as) = none) :
    subRun a as ((a :: as) ++ ws) (subRun a as ((a :: as) ++ ws) s) =
      subRun a as ((a :: as) ++ ws) s :=
  subRun_idem_aux a as ws hws hbf s.length s (le_refl _)

/-- A PatternRule of fix_routes.py: whole-text collapse of greedy runs of a
non-empty literal (with interleaved whitespace) to one canonical
replacement; the semantics of the re.sub calls of steps 1 to 3.  The
empty-literal branch cannot arise for the rules of the source. -/
def collapseRun (lit rep t : String) : String :=
  match lit.data with
  | [] => t
  | a :: as => String.mk (subRun a as rep.data t.data)

/-- Step 1 of fix_routes.py (line 9): collapse duplicate ownerName select
fields. -/
def fixStep1 (t : String) : String :=
  collapseRun "ownerName: users.username," "ownerName: users.username,\n        " t

/-- Step 2 of fix_routes.py (line 12): collapse duplicate leftJoin clauses. -/
def fixStep2 (t : String) : String :=
  collapseRun ".leftJoin(users, eq(leadOperational.ownerUserId, users.id))"
    ".leftJoin(users, eq(leadOperational.ownerUserId, users.id))\n      " t

/-- Step 3 of fix_routes.py (line 15): collapse duplicate ownerName fields of
the enrichedLeads mapping. -/
def fixStep3 (t : String) : String :=
  collapseRun "ownerName: lead.ownerName," "ownerName: lead.ownerName,\n        " t

/-- Target literal of step 4 of fix_routes.py (line 19). -/
def listRespTarget : String := "res.json(\x7b\n        ...lead,\n        ownerName,"

/-- Replacement literal of step 4 of fix_routes.py (line 19). -/
def listRespReplacement : String := "res.json(\x7b"

/-- Step 4 of fix_routes.py (line 19): the LiteralRewrite fixing the list
response shape via str.replace. -/
def listResponseFix (t : String) : String :=
  strRepl listRespTarget listRespReplacement t

/-- The whole pure transformation of fix_routes.py: steps 1 to 4 in order;
step 5 of the source only probes for a route marker and changes nothing. -/
def fixRoutesTransform (t : String) : String :=
  listResponseFix (fixStep3 (fixStep2 (fixStep1 t)))

/-- Configuration of the line scanner of update_routes.py: the designated
patterns and synthesized lines of its rules.  The update script hard-codes
these values (updateCfg below); the scan loop itself is scanGo. -/
structure ScanConfig where
  headerPat : String
  headerFrom : String
  headerTo : String
  anchorPat : String
  confirmPat : String
  terminatorPat : String
  insertLines : List String
  fieldPat : String
  fieldInsert : String
  joinPat : String
  joinInsert : String

/-- Header rewrite applied to each line first (lines 11-12 of the source):
if the line contains the parameter-list pattern the line is rewritten in
place; the loop then keeps going with the rewritten line. -/
def hdrLine (cfg : ScanConfig) (line : String) : String :=
  if hasSubS cfg.headerPat line then strRepl cfg.headerFrom cfg.headerTo line
  else line

/-- Rules 3 to 6 of a scan step of update_routes.py (skip suppression, field
injection, join injection, default copy), applied to the possibly rewritten
line l; resT and resF are the scan results for the remaining lines with
skipping set and cleared respectively. -/
def scanTail (cfg : ScanConfig) (l : String) (skp : Bool)
    (resT resF : Option (List String)) : Option (List String) :=
  if skp && !(hasSubS cfg.terminatorPat l) then resT
  else if hasSubS cfg.fieldPat l then
    resF.map (fun r => l :: cfg.fieldInsert :: r)
  else if hasSubS cfg.joinPat l then
    resF.map (fun r => l :: cfg.joinInsert :: r)
  else
    resF.map (fun r => l :: r)

/-- The scan loop of update_routes.py (lines 7-44), one step per input line.
The two-line lookahead of the block-insertion rule reads lines i+1 and i+2
of the input; a missing line is a Python IndexError, modelled as none.
After a block insertion the loop continues at the very next line with
skipping set, exactly as the Python for loop with continue does. -/
def scanGo (cfg : ScanConfig) : List String → Bool → Option (List String)
  | [], _ => some []
  | line :: rest, skp =>
    if hasSubS cfg.anchorPat (hdrLine cfg line) then
      match rest with
      | [] => none
      | l1 :: rest2 =>
        if hasSubS cfg.confirmPat l1 then
          match rest2 with
          | [] => none
          | l2 :: _ =>
            (scanGo cfg rest true).map
              (fun r => hdrLine cfg line :: l1 :: l2 :: (cfg.insertLines ++ r))
        else
          scanTail cfg (hdrLine cfg line) skp (scanGo cfg rest true)
            (scanGo cfg rest false)
    else
      scanTail cfg (hdrLine cfg line) skp (scanGo cfg rest true)
        (scanGo cfg rest false)

/-- Whole scan of update_routes.py: skipping starts cleared. -/
def scan (cfg : ScanConfig) (lines : List String) : Option (List String) :=
  scanGo cfg lines false

/-- The hard-coded scanner configuration of update_routes.py. -/
def updateCfg : ScanConfig where
  headerPat := "const \x7b batchId, minScore, status, state, onlyContactable, excludeDnc, search \x7d = req.query;"
  headerFrom := "state, onlyContactable"
  headerTo := "state, zip, onlyContactable"
  anchorPat := "if (status) \x7b"
  confirmPat := "conditions.push(eq(leadOperational.status, status as any));"
  terminatorPat := "if (excludeDnc === \x27true\x27) \x7b"
  insertLines := ["\n", "      if (zip) \x7b\n",
    "        conditions.push(ilike(canonicalPersons.zip, \x60$\x7bzip\x7d%\x60));\n",
    "      \x7d\n"]
  fieldPat := "ownerUserId: leadOperational.ownerUserId,"
  fieldInsert := "        ownerName: users.username,\n"
  joinPat := ".innerJoin(canonicalPersons, and(eq(leadOperational.personId, canonicalPersons.id), eq(canonicalPersons.companyId, companyId)))"
  joinInsert := "      .leftJoin(users, eq(leadOperational.ownerUserId, users.id))\n"

/-- Python readlines semantics: split the text into lines, each keeping its
trailing newline; an unterminated last chunk is kept as well. -/
def splitKeepAux (acc : List Char) : List Char → List (List Char)
  | [] => if acc.isEmpty then [] else [acc.reverse]
  | c :: rest =>
    if c = '\n' then (acc.reverse ++ ['\n']) :: splitKeepAux [] rest
    else splitKeepAux (c :: acc) rest

/-- Python readlines on String. -/
def splitKeepS (t : String) : List String :=
  (splitKeepAux [] t.data).map String.mk

/-- The whole transformation of update_routes.py: readlines, scan, and the
writelines concatenation; none when the scan raises IndexError (the
exception propagates before the output file is opened). -/
def updateRoutesTransform (t : String) : Option String :=
  (scan updateCfg (splitKeepS t)).map (fun ls => String.join ls)

/-- Observable outcome of one script run: the final file content on disk
together with success or failure. -/
inductive RunResult where
  | ok : String → RunResult
  | failed : String → RunResult
deriving DecidableEq

/-- IO boundary model of one run of either script, translated from the
read-transform-write shape of both sources plus the Python file semantics
at the boundary: a failed read raises before any transformation; a raising
transformation (IndexError) propagates before the output file is opened;
opening with mode w truncates the file before the new content is written,
so a write failure leaves only the prefix that landed (written characters).
readOk and writeOk are the failure switches of the external collaborators. -/
def runScript (transform : String → Option String) (readOk writeOk : Bool)
    (written : Nat) (disk : String) : RunResult :=
  if !readOk then RunResult.failed disk
  else
    match transform disk with
    | none => RunResult.failed disk
    | some out =>
      if writeOk then RunResult.ok out
      else RunResult.failed (String.mk (out.data.take written))

theorem scanTail_none (cfg : ScanConfig) (l : String) (skp : Bool) :
    scanTail cfg l skp none none = none := by
  unfold scanTail
  split
  · rfl
  · split
    · rfl
    · split
      · rfl
      · rfl

theorem scanTail_origin {cfg : ScanConfig} {l : String} {skp : Bool}
    {resT resF : Option (List String)} {out : List String}
    (h : scanTail cfg l skp resT resF = some out) :
    resT = some out ∨
    (∃ r, resF = some r ∧
      (out = l :: cfg.fieldInsert :: r ∨ out = l :: cfg.joinInsert :: r ∨
        out = l :: r)) := by
  unfold scanTail at h
  split at h
  · exact Or.inl h
  · split at h
    · rw [Option.map_eq_some'] at h
      obtain ⟨r, hr, hout⟩ := h
      exact Or.inr ⟨r, hr, Or.inl hout.symm⟩
    · split at h
      · rw [Option.map_eq_some'] at h
        obtain ⟨r, hr, hout⟩ := h
        exact Or.inr ⟨r, hr, Or.inr (Or.inl hout.symm)⟩
      · rw [Option.map_eq_some'] at h
        obtain ⟨r, hr, hout⟩ := h
        exact Or.inr ⟨r, hr, Or.inr (Or.inr hout.symm)⟩

theorem strRepl_no_occ (pat rep t : String) (h : hasSubS pat t = false) :
    strRepl pat rep t = t := by
  unfold strRepl
  split
  · rfl
  · rename_i a pa hp
    unfold hasSubS at h
    rw [hp] at h
    rw [replaceAllL_no_occ a pa rep.data t.data h]

theorem hasSub_nil_pat (t : List Char) : hasSub [] t = true := by
  cases t <;> simp [hasSub, dropLit]

theorem hasSub_cons_of {p : List Char} (c : Char) {t : List Char}
    (h : hasSub p t = true) : hasSub p (c :: t) = true := by
  simp [hasSub, h]

theorem dropLit_append_cases {x y z r : List Char}
    (h : dropLit x (y ++ z) = some r) :
    (dropLit x y).isSome ∨ (dropLit y x).isSome := by
  induction x generalizing y with
  | nil => exact Or.inl (by simp [dropLit])
  | cons c cs ih =>
    cases y with
    | nil => exact Or.inr (by simp [dropLit])
    | cons d ds =>
      simp only [List.cons_append, dropLit] at h
      split at h
      · rename_i hcd
        rcases ih h with h1 | h1
        · exact Or.inl (by simp only [dropLit, if_pos hcd]; exact h1)
        · exact Or.inr (by simp only [dropLit, if_pos hcd.symm]; exact h1)
      · exact absurd h (by simp)

theorem dropLit_compare {x y s : List Char} (hx : (dropLit x s).isSome)
    (hy : (dropLit y s).isSome) :
    (dropLit x y).isSome ∨ (dropLit y x).isSome := by
  obtain ⟨r, hr⟩ := Option.isSome_iff_exists.mp hy
  obtain ⟨r2, hr2⟩ := Option.isSome_iff_exists.mp hx
  rw [dropLit_eq_append hr] at hr2
  exact dropLit_append_cases hr2

theorem hasSub_append_elim {p y z : List Char}
    (h : hasSub p (y ++ z) = true) :
    (∃ y1 y2, y = y1 ++ y2 ∧ y2 ≠ [] ∧ (dropLit p (y2 ++ z)).isSome) ∨
      hasSub p z = true := by
  induction y with
  | nil => exact Or.inr (by simpa using h)
  | cons c ys ih =>
    rw [List.cons_append] at h
    simp only [hasSub, Bool.or_eq_true] at h
    rcases h with h1 | h1
    · exact Or.inl ⟨[], c :: ys, rfl, by simp, by simpa using h1⟩
    · rcases ih h1 with ⟨y1, y2, hy, hne, hdp⟩ | hz
      · exact Or.inl ⟨c :: y1, y2, by rw [hy, List.cons_append], hne, hdp⟩
      · exact Or.inr hz

theorem replaceAllF_fuel_aux (a : Char) (pa rep : List Char) :
    ∀ (b : Nat) (s : List Char) (f : Nat), s.length ≤ b → s.length ≤ f →
      replaceAllF a pa rep f s = replaceAllL a pa rep s := by
  intro b
  induction b with
  | zero =>
    intro s f hb _
    have hnil : s = [] := List.length_eq_zero.mp (Nat.le_zero.mp hb)
    subst hnil
    cases f <;> rfl
  | succ b ih =>
    intro s f hb hf
    cases s with
    | nil => cases f <;> rfl
    | cons c rest =>
      cases f with
      | zero => simp at hf
      | succ f =>
        simp only [List.length_cons] at hb hf
        cases hd : dropLit (a :: pa) (c :: rest) with
        | some r =>
          have hr : r.length ≤ rest.length := by
            have := dropLit_len hd
            simp only [List.length_cons] at this
            omega
          simp only [replaceAllL, List.length_cons, replaceAllF, hd]
          rw [ih r f (by omega) (by omega), ih r rest.length (by omega) hr]
        | none =>
          simp only [replaceAllL, List.length_cons, replaceAllF, hd]
          rw [ih rest f (by omega) (by omega),
            ih rest rest.length (by omega) (le_refl _)]

theorem replaceAll_fuel (a : Char) (pa rep s : List Char) (f : Nat)
    (hf : s.length ≤ f) : replaceAllF a pa rep f s = replaceAllL a pa rep s :=
  replaceAllF_fuel_aux a pa rep s.length s f (le_refl _) hf

theorem replaceAll_pos {a : Char} {pa : List Char} {c : Char}
    {rest r : List Char} (rep : List Char)
    (h : dropLit (a :: pa) (c :: rest) = some r) :
    replaceAllL a pa rep (c :: rest) = rep ++ replaceAllL a pa rep r := by
  have hr : r.length ≤ rest.length := by
    have := dropLit_len h
    simp only [List.length_cons] at this
    omega
  simp only [replaceAllL, List.length_cons, replaceAllF, h]
  rw [replaceAll_fuel a pa rep r rest.length hr]
  rfl

theorem replaceAll_neg {a : Char} {pa : List Char} {c : Char}
    {rest : List Char} (rep : List Char)
    (h : dropLit (a :: pa) (c :: rest) = none) :
    replaceAllL a pa rep (c :: rest) = c :: replaceAllL a pa rep rest := by
  simp only [replaceAllL, List.length_cons, replaceAllF, h]

theorem replaceAll_pres_aux (a : Char) (pa rep pat : List Char)
    (hc1 : ∀ q, q < pat.length → dropLit (pat.drop q) (a :: pa) = none)
    (hc2 : ∀ q, q < pat.length → dropLit (a :: pa) (pat.drop q) = none) :
    ∀ (b : Nat) (s : List Char), s.length ≤ b → ∀ q, q < pat.length →
      (dropLit (pat.drop q) s).isSome →
      (dropLit (pat.drop q) (replaceAllL a pa rep s)).isSome := by
  intro b
  induction b with
  | zero =>
    intro s hb q hq hsome
    have hnil : s = [] := List.length_eq_zero.mp (Nat.le_zero.mp hb)
    subst hnil
    have hlen : 0 < (pat.drop q).length := by
      rw [List.length_drop]
      omega
    cases hq1 : pat.drop q with
    | nil => rw [hq1] at hlen; simp at hlen
    | cons x xs => rw [hq1] at hsome; simp [dropLit] at hsome
  | succ b ih =>
    intro s hb q hq hsome
    cases s with
    | nil =>
      have hlen : 0 < (pat.drop q).length := by
        rw [List.length_drop]
        omega
      cases hq1 : pat.drop q with
      | nil => rw [hq1] at hlen; simp at hlen
      | cons x xs => rw [hq1] at hsome; simp [dropLit] at hsome
    | cons c rest =>
      cases hd : dropLit (a :: pa) (c :: rest) with
      | some r =>
        have hfrom : (dropLit (a :: pa) (c :: rest)).isSome := by
          rw [hd]
          rfl
        rcases dropLit_compare hsome hfrom with h1 | h1
        · rw [hc1 q hq] at h1
          simp at h1
        · rw [hc2 q hq] at h1
          simp at h1
      | none =>
        rw [replaceAll_neg rep hd]
        have hlen : 0 < (pat.drop q).length := by
          rw [List.length_drop]
          omega
        cases hq1 : pat.drop q with
        | nil => rw [hq1] at hlen; simp at hlen
        | cons x xs =>
          rw [hq1] at hsome
          simp only [dropLit] at hsome
          by_cases hxc : x = c
          · rw [if_pos hxc] at hsome
            have hxs : pat.drop (q + 1) = xs := by
              have h5 := congrArg (List.drop 1) hq1
              rw [List.drop_drop] at h5
              simpa [Nat.add_comm] using h5
            by_cases hq2 : q + 1 < pat.length
            · have hrec := ih rest
                (by simp only [List.length_cons] at hb; omega) (q + 1) hq2
                (by rw [hxs]; exact hsome)
              simp only [dropLit, if_pos hxc]
              rw [← hxs]
              exact hrec
            · have hxsnil : xs = [] := by
                have h6 : (pat.drop (q + 1)).length = 0 := by
                  rw [List.length_drop]
                  omega
                rw [hxs] at h6
                exact List.length_eq_zero.mp h6
              subst hxsnil
              simp [dropLit, if_pos hxc]
          · rw [if_neg hxc] at hsome
            simp at hsome

theorem replaceAll_pres (a : Char) (pa rep pat : List Char)
    (hp : 0 < pat.length)
    (hc1 : ∀ q, q < pat.length → dropLit (pat.drop q) (a :: pa) = none)
    (hc2 : ∀ q, q < pat.length → dropLit (a :: pa) (pat.drop q) = none)
    (hc3 : hasSub pat (a :: pa) = false)
    (hc4 : ∀ j, j < (a :: pa).length → dropLit ((a :: pa).drop j) pat = none) :
    ∀ (b : Nat) (s : List Char), s.length ≤ b → hasSub pat s = true →
      hasSub pat (replaceAllL a pa rep s) = true := by
  intro b
  induction b with
  | zero =>
    intro s hb hsub
    have hnil : s = [] := List.length_eq_zero.mp (Nat.le_zero.mp hb)
    subst hnil
    exact hsub
  | succ b ih =>
    intro s hb hsub
    cases s with
    | nil => exact hsub
    | cons c rest =>
      cases hd : dropLit (a :: pa) (c :: rest) with
      | some r =>
        rw [replaceAll_pos rep hd]
        have hr : r.length ≤ b := by
          have := dropLit_len hd
          simp only [List.length_cons] at this hb
          omega
        have hseq : c :: rest = (a :: pa) ++ r := dropLit_eq_append hd
        rw [hseq] at hsub
        rcases hasSub_append_elim hsub with ⟨y1, y2, hy, hne, hdp⟩ | htail
        · obtain ⟨r0, hr0⟩ := Option.isSome_iff_exists.mp hdp
          rcases dropLit_append_cases hr0 with h1 | h1
          · have hin : hasSub pat (a :: pa) = true := by
              rw [hy]
              exact hasSub_append_right y1 (hasSub_of_dropLit h1)
            rw [hc3] at hin
            exact absurd hin (by simp)
          · have hy2 : (a :: pa).drop y1.length = y2 := by
              rw [hy]
              exact List.drop_left y1 y2
            have hj : y1.length < (a :: pa).length := by
              have hlen := congrArg List.length hy
              simp only [List.length_append] at hlen
              have hy2len : 0 < y2.length := List.length_pos.mpr hne
              omega
            rw [← hy2] at h1
            rw [hc4 y1.length hj] at h1
            simp at h1
        · exact hasSub_append_right rep (ih r hr htail)
      | none =>
        simp only [hasSub, Bool.or_eq_true] at hsub
        rcases hsub with h1 | h1
        · have h2 := replaceAll_pres_aux a pa rep pat hc1 hc2
            (c :: rest).length (c :: rest) (le_refl _) 0 (by omega)
            (by simpa using h1)
          simp only [List.drop_zero] at h2
          exact hasSub_of_dropLit h2
        · rw [replaceAll_neg rep hd]
          exact hasSub_cons_of c
            (ih rest (by simp only [List.length_cons] at hb; omega) h1)

theorem replaceAll_nonew_aux (a : Char) (pa rep pat : List Char)
    (hd1 : ∀ q, q < pat.length → dropLit (pat.drop q) rep = none)
    (hd2 : ∀ q, q < pat.length → dropLit rep (pat.drop q) = none) :
    ∀ (b : Nat) (s : List Char), s.length ≤ b → ∀ q, q < pat.length →
      (dropLit (pat.drop q) (replaceAllL a pa rep s)).isSome →
      (dropLit (pat.drop q) s).isSome := by
  intro b
  induction b with
  | zero =>
    intro s hb q hq hsome
    have hnil : s = [] := List.length_eq_zero.mp (Nat.le_zero.mp hb)
    subst hnil
    have hlen : 0 < (pat.drop q).length := by
      rw [List.length_drop]
      omega
    cases hq1 : pat.drop q with
    | nil => rw [hq1] at hlen; simp at hlen
    | cons x xs => rw [hq1] at hsome; simp [dropLit] at hsome
  | succ b ih =>
    intro s hb q hq hsome
    cases s with
    | nil =>
      have hlen : 0 < (pat.drop q).length := by
        rw [List.length_drop]
        omega
      cases hq1 : pat.drop q with
      | nil => rw [hq1] at hlen; simp at hlen
      | cons x xs => rw [hq1] at hsome; simp [dropLit] at hsome
    | cons c rest =>
      cases hd : dropLit (a :: pa) (c :: rest) with
      | some r =>
        rw [replaceAll_pos rep hd] at hsome
        obtain ⟨r0, hr0⟩ := Option.isSome_iff_exists.mp hsome
        rcases dropLit_append_cases hr0 with h1 | h1
        · rw [hd1 q hq] at h1
          simp at h1
        · rw [hd2 q hq] at h1
          simp at h1
      | none =>
        rw [replaceAll_neg rep hd] at hsome
        have hlen : 0 < (pat.drop q).length := by
          rw [List.length_drop]
          omega
        cases hq1 : pat.drop q with
        | nil => rw [hq1] at hlen; simp at hlen
        | cons x xs =>
          rw [hq1] at hsome
          simp only [dropLit] at hsome
          by_cases hxc : x = c
          · rw [if_pos hxc] at hsome
            have hxs : pat.drop (q + 1) = xs := by
              have h5 := congrArg (List.drop 1) hq1
              rw [List.drop_drop] at h5
              simpa [Nat.add_comm] using h5
            by_cases hq2 : q + 1 < pat.length
            · have hrec := ih rest
                (by simp only [List.length_cons] at hb; omega) (q + 1) hq2
                (by rw [hxs]; exact hsome)
              simp only [dropLit, if_pos hxc]
              rw [← hxs]
              exact hrec
            · have hxsnil : xs = [] := by
                have h6 : (pat.drop (q + 1)).length = 0 := by
                  rw [List.length_drop]
                  omega
                rw [hxs] at h6
                exact List.length_eq_zero.mp h6
              subst hxsnil
              simp [dropLit, if_pos hxc]
          · rw [if_neg hxc] at hsome
            simp at hsome

theorem replaceAll_nonew (a : Char) (pa rep pat : List Char)
    (hp : 0 < pat.length)
    (hd1 : ∀ q, q < pat.length → dropLit (pat.drop q) rep = none)
    (hd2 : ∀ q, q < pat.length → dropLit rep (pat.drop q) = none)
    (hd3 : ∀ j, j < rep.length → dropLit (rep.drop j) pat = none)
    (hd4 : hasSub pat rep = false) :
    ∀ (b : Nat) (s : List Char), s.length ≤ b →
      hasSub pat (replaceAllL a pa rep s) = true → hasSub pat s = true := by
  intro b
  induction b with
  | zero =>
    intro s hb hsub
    have hnil : s = [] := List.length_eq_zero.mp (Nat.le_zero.mp hb)
    subst hnil
    exact hsub
  | succ b ih =>
    intro s hb hsub
    cases s with
    | nil => exact hsub
    | cons c rest =>
      cases hd : dropLit (a :: pa) (c :: rest) with
      | some r =>
        rw [replaceAll_pos rep hd] at hsub
        have hr : r.length ≤ b := by
          have := dropLit_len hd
          simp only [List.length_cons] at this hb
          omega
        rcases hasSub_append_elim hsub with ⟨y1, y2, hy, hne, hdp⟩ | htail
        · obtain ⟨r0, hr0⟩ := Option.isSome_iff_exists.mp hdp
          rcases dropLit_append_cases hr0 with h1 | h1
          · have hin : hasSub pat rep = true := by
              rw [hy]
              exact hasSub_append_right y1 (hasSub_of_dropLit h1)
            rw [hd4] at hin
            exact absurd hin (by simp)
          · have hy2 : rep.drop y1.length = y2 := by
              rw [hy]
              exact List.drop_left y1 y2
            have hj : y1.length < rep.length := by
              have hlen := congrArg List.length hy
              simp only [List.length_append] at hlen
              have hy2len : 0 < y2.length := List.length_pos.mpr hne
              omega
            rw [← hy2] at h1
            rw [hd3 y1.length hj] at h1
            simp at h1
        · have h2 := ih r hr htail
          have hseq : c :: rest = (a :: pa) ++ r := dropLit_eq_append hd
          rw [hseq]
          exact hasSub_append_right (a :: pa) h2
      | none =>
        rw [replaceAll_neg rep hd] at hsub
        simp only [hasSub, Bool.or_eq_true] at hsub
        rcases hsub with h1 | h1
        · have h2 := replaceAll_nonew_aux a pa rep pat hd1 hd2
            (c :: rest).length (c :: rest) (le_refl _) 0 (by omega)
            (by rw [replaceAll_neg rep hd]; simp only [List.drop_zero]; exact h1)
          simp only [List.drop_zero] at h2
          exact hasSub_of_dropLit h2
        · exact hasSub_cons_of c
            (ih rest (by simp only [List.length_cons] at hb; omega) h1)

/-- The header rewrite of update_routes.py cannot destroy an anchor
occurrence: the replaced literal aligns with no part of the anchor pattern
(decidably checked), so every anchor occurrence survives the rewrite. -/
theorem hdrLine_pres_anchor (l : String)
    (h : hasSubS updateCfg.anchorPat l = true) :
    hasSubS updateCfg.anchorPat (hdrLine updateCfg l) = true := by
  unfold hdrLine
  split
  · unfold strRepl
    split
    · exact h
    · rename_i a2 pa2 heq
      show hasSub updateCfg.anchorPat.data
        (replaceAllL a2 pa2 updateCfg.headerTo.data l.data) = true
      have hc1 : ∀ q, q < updateCfg.anchorPat.data.length →
          dropLit (updateCfg.anchorPat.data.drop q)
            updateCfg.headerFrom.data = none := by decide
      have hc2 : ∀ q, q < updateCfg.anchorPat.data.length →
          dropLit updateCfg.headerFrom.data
            (updateCfg.anchorPat.data.drop q) = none := by decide
      have hc3 : hasSub updateCfg.anchorPat.data
          updateCfg.headerFrom.data = false := by decide
      have hc4 : ∀ j, j < updateCfg.headerFrom.data.length →
          dropLit (updateCfg.headerFrom.data.drop j)
            updateCfg.anchorPat.data = none := by decide
      rw [heq] at hc1 hc2 hc3 hc4
      exact replaceAll_pres a2 pa2 updateCfg.headerTo.data
        updateCfg.anchorPat.data (by decide) hc1 hc2 hc3 hc4
        l.data.length l.data (le_refl _) h
  · exact h

/-- The header rewrite of update_routes.py cannot introduce a new
occurrence of a pattern that aligns with no part of the inserted text. -/
theorem hdrLine_nonew (pat l : String) (hp : 0 < pat.data.length)
    (hd1 : ∀ q, q < pat.data.length →
      dropLit (pat.data.drop q) updateCfg.headerTo.data = none)
    (hd2 : ∀ q, q < pat.data.length →
      dropLit updateCfg.headerTo.data (pat.data.drop q) = none)
    (hd3 : ∀ j, j < updateCfg.headerTo.data.length →
      dropLit (updateCfg.headerTo.data.drop j) pat.data = none)
    (hd4 : hasSub pat.data updateCfg.headerTo.data = false)
    (h : hasSubS pat l = false) :
    hasSubS pat (hdrLine updateCfg l) = false := by
  unfold hdrLine
  split
  · unfold strRepl
    split
    · exact h
    · rename_i a2 pa2 heq
      show hasSub pat.data
        (replaceAllL a2 pa2 updateCfg.headerTo.data l.data) = false
      cases hcase : hasSub pat.data
          (replaceAllL a2 pa2 updateCfg.headerTo.data l.data) with
      | false => rfl
      | true =>
        have h2 := replaceAll_nonew a2 pa2 updateCfg.headerTo.data pat.data
          hp hd1 hd2 hd3 hd4 l.data.length l.data (le_refl _) hcase
        exact absurd h2 (by simp [show hasSub pat.data l.data = false from h])
  · exact h

theorem hdrLine_nonew_anchor (l : String)
    (h : hasSubS updateCfg.anchorPat l = false) :
    hasSubS updateCfg.anchorPat (hdrLine updateCfg l) = false :=
  hdrLine_nonew updateCfg.anchorPat l (by decide) (by decide) (by decide)
    (by decide) (by decide) h

theorem hdrLine_nonew_term (l : String)
    (h : hasSubS updateCfg.terminatorPat l = false) :
    hasSubS updateCfg.terminatorPat (hdrLine updateCfg l) = false :=
  hdrLine_nonew updateCfg.terminatorPat l (by decide) (by decide) (by decide)
    (by decide) (by decide) h

/-- The scenario configuration of the insertion test of the spec: the
update scanner with its confirm pattern and synthesized lines replaced by
the abstract values of the scenario. -/
def scenCfg : ScanConfig :=
  { updateCfg with
    confirmPat := "conditions.push(A);",
    insertLines := ["", "if (zip) \x7b", "conditions.push(B);", "\x7d"] }

/-- C1: for the anchor line followed by its confirming line and closing
line, the scanner emits those three lines, then the synthesized blank line
and conditional clause, and the terminator line is preserved in the output
rather than consumed. -/
theorem claim1_block_insertion_scenario :
    scan scenCfg ["if (status) \x7b", "conditions.push(A);", "\x7d",
      "if (excludeDnc === \x27true\x27) \x7b"] =
    some ["if (status) \x7b", "conditions.push(A);", "\x7d", "",
      "if (zip) \x7b", "conditions.push(B);", "\x7d",
      "if (excludeDnc === \x27true\x27) \x7b"] := by
  decide

/-- C4: each of the three collapse rules of fix_routes.py is idempotent:
applying the rule twice equals applying it once, for every text. -/
theorem claim4_collapse_idempotent (T : String) :
    fixStep1 (fixStep1 T) = fixStep1 T ∧
    fixStep2 (fixStep2 T) = fixStep2 T ∧
    fixStep3 (fixStep3 T) = fixStep3 T := by
  refine ⟨?_, ?_, ?_⟩
  · exact congrArg String.mk (subRun_idempotent 'o'
      "wnerName: users.username,".data "\n        ".data T.data
      (by decide) (by decide))
  · exact congrArg String.mk (subRun_idempotent '.'
      "leftJoin(users, eq(leadOperational.ownerUserId, users.id))".data
      "\n      ".data T.data (by decide) (by decide))
  · exact congrArg String.mk (subRun_idempotent 'o'
      "wnerName: lead.ownerName,".data "\n        ".data T.data
      (by decide) (by decide))

/-- C5: a collapse rule turns three consecutive occurrences of its fragment
into exactly one canonical occurrence: the abstract scenario of the spec,
and the concrete duplicate-ownerName rule of fix_routes.py, whose canonical
occurrence is its replacement string. -/
theorem claim5_triple_run_collapse :
    collapseRun "X: Y," "X: Y,\n" "X: Y,\nX: Y,\nX: Y,\n" = "X: Y,\n" ∧
    fixStep1 ("ownerName: users.username,\nownerName: users.username,\nownerName: users.username,\n") =
      "ownerName: users.username,\n        " := by
  decide

/-- C8: the LiteralRewrite of step 4 of fix_routes.py leaves any text not
containing its target literal unchanged; absence is never an error. -/
theorem claim8_literal_rewrite_tolerance (T : String)
    (h : hasSubS listRespTarget T = false) : listResponseFix T = T :=
  strRepl_no_occ listRespTarget listRespReplacement T h

theorem claim8_literal_rewrite_tolerance_witness :
    hasSubS listRespTarget "hello world" = false ∧
    listResponseFix "hello world" = "hello world" :=
  ⟨by decide, claim8_literal_rewrite_tolerance "hello world" (by decide)⟩

/-- A line containing both the header parameter-list pattern and the field
declaration pattern of update_routes.py. -/
def c2line : String := "const \x7b batchId, minScore, status, state, onlyContactable, excludeDnc, search \x7d = req.query; ownerUserId: leadOperational.ownerUserId,"

/-- The previous line after the header rewrite. -/
def c2lineRw : String := "const \x7b batchId, minScore, status, state, zip, onlyContactable, excludeDnc, search \x7d = req.query; ownerUserId: leadOperational.ownerUserId,"

/-- C2 counterexample: a line matching both the header-rewrite pattern
(rule 1) and the field-declaration pattern (rule 4) triggers both rules:
the scanner emits the rewritten line AND the synthesized field line, not
the result of the highest-priority rule alone, so rules 1-5 are not
mutually exclusive per line. -/
theorem claim2_priority_cex :
    hasSubS updateCfg.headerPat c2line = true ∧
    hasSubS updateCfg.fieldPat c2line = true ∧
    scan updateCfg [c2line] = some [c2lineRw, updateCfg.fieldInsert] ∧
    ([c2lineRw, updateCfg.fieldInsert] : List String) ≠ [c2lineRw] := by
  decide

/-- C2 amended: on a line not matching the header-rewrite pattern, the scan
step is a first-match-wins dispatch in the priority order block insertion,
skip suppression, field injection, join injection, default copy; the header
rule, by contrast, rewrites the line in place and falls through to the
later rules. -/
theorem claim2_priority_order (cfg : ScanConfig) (line : String)
    (rest : List String) (skp : Bool)
    (hh : hasSubS cfg.headerPat line = false) :
    scanGo cfg (line :: rest) skp =
      if hasSubS cfg.anchorPat line then
        match rest with
        | [] => none
        | l1 :: rest2 =>
          if hasSubS cfg.confirmPat l1 then
            match rest2 with
            | [] => none
            | l2 :: _ =>
              (scanGo cfg rest true).map
                (fun r => line :: l1 :: l2 :: (cfg.insertLines ++ r))
          else if skp && !(hasSubS cfg.terminatorPat line) then
            scanGo cfg rest true
          else if hasSubS cfg.fieldPat line then
            (scanGo cfg rest false).map (fun r => line :: cfg.fieldInsert :: r)
          else if hasSubS cfg.joinPat line then
            (scanGo cfg rest false).map (fun r => line :: cfg.joinInsert :: r)
          else (scanGo cfg rest false).map (fun r => line :: r)
      else if skp && !(hasSubS cfg.terminatorPat line) then
        scanGo cfg rest true
      else if hasSubS cfg.fieldPat line then
        (scanGo cfg rest false).map (fun r => line :: cfg.fieldInsert :: r)
      else if hasSubS cfg.joinPat line then
        (scanGo cfg rest false).map (fun r => line :: cfg.joinInsert :: r)
      else (scanGo cfg rest false).map (fun r => line :: r) := by
  have he : hdrLine cfg line = line := by simp [hdrLine, hh]
  simp only [scanGo, scanTail, he]

/-- A line matching both the field pattern (rule 4) and the join pattern
(rule 5) of update_routes.py. -/
def c2bothLine : String := "ownerUserId: leadOperational.ownerUserId, .innerJoin(canonicalPersons, and(eq(leadOperational.personId, canonicalPersons.id), eq(canonicalPersons.companyId, companyId)))"

theorem claim2_priority_order_witness :
    scan updateCfg [c2bothLine] = some [c2bothLine, updateCfg.fieldInsert] := by
  rw [show scan updateCfg [c2bothLine] = scanGo updateCfg (c2bothLine :: []) false
      from rfl,
    claim2_priority_order updateCfg c2bothLine [] false (by decide)]
  decide

/-- Input whose first three lines trigger block insertion (setting the
skipping flag) and whose last line contains the anchor pattern; the
terminator pattern occurs nowhere. -/
def c3lines : List String :=
  ["if (status) \x7b\n",
   "        conditions.push(eq(leadOperational.status, status as any));\n",
   "      \x7d\n",
   "      if (status) \x7b\n"]

/-- C3 counterexample: the scanner enters skipping and the terminator never
occurs afterwards, yet the scan does NOT silently drop the remaining lines:
the anchor in the last line makes the lookahead raise IndexError, so an
error is raised instead. -/
theorem claim3_unterminated_skip_cex :
    (c3lines.all fun l => !(hasSubS updateCfg.terminatorPat l)) = true ∧
    hasSubS updateCfg.anchorPat "if (status) \x7b\n" = true ∧
    hasSubS updateCfg.confirmPat
      "        conditions.push(eq(leadOperational.status, status as any));\n" = true ∧
    scan updateCfg c3lines = none := by
  decide

/-- C3 amended: once skipping is set, if no later line contains the
terminator or anchor patterns, the scan silently consumes every remaining
line: they are all absent from the output and no error occurs.  Lines
matching the header pattern are rewritten and dropped like any other; the
rewrite can introduce neither pattern.  (A later anchor occurrence can
instead abort the scan: see the counterexample.) -/
theorem claim3_skip_drops_rest (rest : List String)
    (h : ∀ l ∈ rest, hasSubS updateCfg.terminatorPat l = false ∧
      hasSubS updateCfg.anchorPat l = false) :
    scanGo updateCfg rest true = some [] := by
  induction rest with
  | nil => rfl
  | cons line rest ih =>
    obtain ⟨ht, ha⟩ := h line (by simp)
    have ha2 : hasSubS updateCfg.anchorPat (hdrLine updateCfg line) = false :=
      hdrLine_nonew_anchor line ha
    have ht2 : hasSubS updateCfg.terminatorPat (hdrLine updateCfg line) = false :=
      hdrLine_nonew_term line ht
    simp only [scanGo]
    rw [if_neg (by simp [ha2])]
    unfold scanTail
    rw [if_pos (by simp [ht2])]
    exact ih fun l hl => h l (by simp [hl])

theorem claim3_skip_drops_rest_witness :
    scanGo updateCfg ["hello\n", "world\n"] true = some [] :=
  claim3_skip_drops_rest ["hello\n", "world\n"] (by decide)

/-- C9: a line sequence in which no line contains any designated pattern of
the scanner is reproduced exactly: no line is changed, added or removed. -/
theorem claim9_line_conservation (cfg : ScanConfig) (lines : List String)
    (h : ∀ l ∈ lines, hasSubS cfg.headerPat l = false ∧
      hasSubS cfg.anchorPat l = false ∧ hasSubS cfg.confirmPat l = false ∧
      hasSubS cfg.terminatorPat l = false ∧ hasSubS cfg.fieldPat l = false ∧
      hasSubS cfg.joinPat l = false) :
    scan cfg lines = some lines := by
  unfold scan
  induction lines with
  | nil => rfl
  | cons line rest ih =>
    obtain ⟨hh, ha, _, _, hf, hj⟩ := h line (by simp)
    have he : hdrLine cfg line = line := by simp [hdrLine, hh]
    simp only [scanGo, he]
    rw [if_neg (by simp [ha])]
    unfold scanTail
    rw [if_neg (by simp)]
    rw [if_neg (by simp [hf]), if_neg (by simp [hj])]
    rw [ih (fun l hl => h l (by simp [hl]))]
    rfl

theorem claim9_line_conservation_witness :
    scan updateCfg ["hello\n", "world\n"] = some ["hello\n", "world\n"] :=
  claim9_line_conservation updateCfg ["hello\n", "world\n"] (by decide)

/-- One-step unfolding of the scan at a line followed by at least one more
line. -/
theorem scanGo_cons_cons (cfg : ScanConfig) (p l1 : String)
    (rest2 : List String) (skp : Bool) :
    scanGo cfg (p :: l1 :: rest2) skp =
      if hasSubS cfg.anchorPat (hdrLine cfg p) then
        if hasSubS cfg.confirmPat l1 then
          match rest2 with
          | [] => none
          | l2 :: _ =>
            (scanGo cfg (l1 :: rest2) true).map
              (fun r => hdrLine cfg p :: l1 :: l2 :: (cfg.insertLines ++ r))
        else
          scanTail cfg (hdrLine cfg p) skp (scanGo cfg (l1 :: rest2) true)
            (scanGo cfg (l1 :: rest2) false)
      else
        scanTail cfg (hdrLine cfg p) skp (scanGo cfg (l1 :: rest2) true)
          (scanGo cfg (l1 :: rest2) false) := rfl

/-- If the scan of the tail aborts for either skipping state, the scan of
any line in front of it aborts as well. -/
theorem scanGo_none_cons (cfg : ScanConfig) (p : String) (tail : List String)
    (hnone : ∀ b2 : Bool, scanGo cfg tail b2 = none) (htail : tail ≠ [])
    (skp : Bool) : scanGo cfg (p :: tail) skp = none := by
  cases tail with
  | nil => exact absurd rfl htail
  | cons l1 rest2 =>
    rw [scanGo_cons_cons]
    split
    · split
      · cases rest2 with
        | nil => rfl
        | cons l2 rest3 => simp [hnone]
      · simp [hnone, scanTail_none]
    · simp [hnone, scanTail_none]

/-- C7: an anchor occurrence in the last line makes the lookahead of line
i+1 raise IndexError; an anchor in the second-to-last line whose following
line matches the confirm pattern makes the emission of line i+2 raise; in
both cases the scan aborts with no output sequence.  The header rewrite
cannot destroy the anchor occurrence, so no further condition is needed. -/
theorem claim7_oob_lookahead :
    (∀ (pre : List String) (l : String) (skp : Bool),
      hasSubS updateCfg.anchorPat l = true →
      scanGo updateCfg (pre ++ [l]) skp = none) ∧
    (∀ (pre : List String) (a b : String) (skp : Bool),
      hasSubS updateCfg.anchorPat a = true →
      hasSubS updateCfg.confirmPat b = true →
      scanGo updateCfg (pre ++ [a, b]) skp = none) := by
  constructor
  · intro pre
    induction pre with
    | nil =>
      intro l skp ha
      have ha2 := hdrLine_pres_anchor l ha
      simp [scanGo, ha2]
    | cons p pre ih =>
      intro l skp ha
      have hnone : ∀ b2, scanGo updateCfg (pre ++ [l]) b2 = none :=
        fun b2 => ih l b2 ha
      have htail : pre ++ [l] ≠ [] := by simp
      exact scanGo_none_cons updateCfg p (pre ++ [l]) hnone htail skp
  · intro pre
    induction pre with
    | nil =>
      intro a b skp ha hc
      have ha2 := hdrLine_pres_anchor a ha
      simp [scanGo, ha2, hc]
    | cons p pre ih =>
      intro a b skp ha hc
      have hnone : ∀ b2, scanGo updateCfg (pre ++ [a, b]) b2 = none :=
        fun b2 => ih a b b2 ha hc
      have htail : pre ++ [a, b] ≠ [] := by simp
      exact scanGo_none_cons updateCfg p (pre ++ [a, b]) hnone htail skp

theorem claim7_oob_lookahead_witness :
    scan updateCfg ["if (status) \x7b\n"] = none ∧
    scan updateCfg ["if (status) \x7b\n",
      "        conditions.push(eq(leadOperational.status, status as any));\n"] =
      none :=
  ⟨claim7_oob_lookahead.1 [] "if (status) \x7b\n" false (by decide),
   claim7_oob_lookahead.2 [] "if (status) \x7b\n"
     "        conditions.push(eq(leadOperational.status, status as any));\n"
     false (by decide) (by decide)⟩

/-- Anchor line of the duplication counterexample. -/
def c6anchor : String := "if (status) \x7b\n"

/-- Confirming line that also contains the terminator pattern. -/
def c6confirm : String := "        conditions.push(eq(leadOperational.status, status as any)); if (excludeDnc === \x27true\x27) \x7b\n"

/-- Closing line of the duplication counterexample. -/
def c6close : String := "      \x7d\n"

/-- C6 counterexample: the confirming line consumed by block insertion also
contains the terminator pattern, so it escapes the skip region and is
emitted a second time (and so is the line after it): an input line occurs
twice in the output. -/
theorem claim6_no_duplication_cex :
    scan updateCfg [c6anchor, c6confirm, c6close] =
      some ([c6anchor, c6confirm, c6close] ++ updateCfg.insertLines ++
        [c6confirm, c6close]) ∧
    ([c6anchor, c6confirm, c6close].count c6confirm = 1 ∧
      (([c6anchor, c6confirm, c6close] ++ updateCfg.insertLines ++
        [c6confirm, c6close]).count c6confirm = 2)) := by
  decide

/-- Origin predicate for one output line of the scanner with respect to an
input line sequence: the line is an input line (verbatim or
header-rewritten 1:1) or one of the explicitly synthesized lines. -/
def OutOrigin (cfg : ScanConfig) (lines : List String) (l : String) : Prop :=
  (∃ l0 ∈ lines, l = l0 ∨ l = hdrLine cfg l0) ∨
  l ∈ cfg.insertLines ∨ l = cfg.fieldInsert ∨ l = cfg.joinInsert

theorem outOrigin_cons (cfg : ScanConfig) (line : String) (rest : List String)
    {l : String} (h : OutOrigin cfg rest l) : OutOrigin cfg (line :: rest) l := by
  rcases h with ⟨l0, hl0, hor⟩ | hsyn
  · exact Or.inl ⟨l0, List.mem_cons_of_mem _ hl0, hor⟩
  · exact Or.inr hsyn

/-- One-step unfolding of the scan at a final line. -/
theorem scanGo_cons_nil (cfg : ScanConfig) (p : String) (skp : Bool) :
    scanGo cfg [p] skp =
      if hasSubS cfg.anchorPat (hdrLine cfg p) then none
      else scanTail cfg (hdrLine cfg p) skp (some []) (some []) := rfl

theorem origin_scanTail (cfg : ScanConfig) (line : String) (rest : List String)
    (skp : Bool) (out : List String)
    (h : scanTail cfg (hdrLine cfg line) skp (scanGo cfg rest true)
      (scanGo cfg rest false) = some out)
    (ih : ∀ (skp2 : Bool) (out2 : List String),
      scanGo cfg rest skp2 = some out2 → ∀ l ∈ out2, OutOrigin cfg rest l) :
    ∀ l ∈ out, OutOrigin cfg (line :: rest) l := by
  intro l hl
  rcases scanTail_origin h with hT | ⟨r, hrF, hout⟩
  · exact outOrigin_cons cfg line rest (ih true out hT l hl)
  · rcases hout with ho | ho | ho <;> subst ho <;>
      simp only [List.mem_cons] at hl
    · rcases hl with h1 | h1 | h1
      · exact Or.inl ⟨line, by simp, Or.inr h1⟩
      · exact Or.inr (Or.inr (Or.inl h1))
      · exact outOrigin_cons cfg line rest (ih false r hrF l h1)
    · rcases hl with h1 | h1 | h1
      · exact Or.inl ⟨line, by simp, Or.inr h1⟩
      · exact Or.inr (Or.inr (Or.inr h1))
      · exact outOrigin_cons cfg line rest (ih false r hrF l h1)
    · rcases hl with h1 | h1
      · exact Or.inl ⟨line, by simp, Or.inr h1⟩
      · exact outOrigin_cons cfg line rest (ih false r hrF l h1)

/-- C6 amended: every output line of the scanner originates from the input
or from the explicit synthesized lines: it is an input line (copied
verbatim or header-rewritten 1:1) or one of the block-insertion lines, the
field insertion, or the join insertion; the scanner fabricates nothing
else.  Strict no-duplication fails (see the counterexample). -/
theorem claim6_output_lines_origin (cfg : ScanConfig) :
    ∀ (lines : List String) (skp : Bool) (out : List String),
      scanGo cfg lines skp = some out → ∀ l ∈ out, OutOrigin cfg lines l := by
  intro lines
  induction lines with
  | nil =>
    intro skp out h l hl
    simp only [scanGo, Option.some.injEq] at h
    subst h
    simp at hl
  | cons line rest ih =>
    intro skp out h l hl
    cases rest with
    | nil =>
      rw [scanGo_cons_nil] at h
      split at h
      · exact absurd h (by simp)
      · refine origin_scanTail cfg line [] skp out h ?_ l hl
        intro skp2 out2 h2 l2 hl2
        simp only [scanGo, Option.some.injEq] at h2
        subst h2
        simp at hl2
    | cons l1 rest2 =>
      rw [scanGo_cons_cons] at h
      split at h
      · split at h
        · cases rest2 with
          | nil => simp at h
          | cons l2 rest3 =>
            simp only [Option.map_eq_some'] at h
            obtain ⟨r, hrec, hout⟩ := h
            subst hout
            simp only [List.mem_cons, List.mem_append] at hl
            rcases hl with h1 | h1 | h1 | h1 | h1
            · exact Or.inl ⟨line, by simp, Or.inr h1⟩
            · exact Or.inl ⟨l1, by simp, Or.inl h1⟩
            · exact Or.inl ⟨l2, by simp, Or.inl h1⟩
            · exact Or.inr (Or.inl h1)
            · exact outOrigin_cons cfg line _ (ih true r hrec l h1)
        · exact origin_scanTail cfg line (l1 :: rest2) skp out h ih l hl
      · exact origin_scanTail cfg line (l1 :: rest2) skp out h ih l hl

theorem claim6_output_lines_origin_witness :
    scan updateCfg ["hello\n"] = some ["hello\n"] ∧
    ∀ l ∈ (["hello\n"] : List String), OutOrigin updateCfg ["hello\n"] l :=
  ⟨by decide,
   claim6_output_lines_origin updateCfg ["hello\n"] false ["hello\n"] (by decide)⟩

/-- C10 counterexample: the source opens the output file with mode w, which
truncates before writing; a write failure right after truncation leaves the
file empty, a state that is neither the original content nor the
transformed content, so partial file state IS observable on write failure. -/
theorem claim10_partial_write_cex :
    runScript (fun t => some (fixRoutesTransform t)) true false 0 "abc" =
      RunResult.failed "" ∧
    ("" : String) ≠ "abc" ∧ ("" : String) ≠ fixRoutesTransform "abc" := by
  decide

/-- C10 amended: a read failure aborts the run before any transformation
with the disk unchanged; a transformation error (IndexError) aborts before
the output file is opened, also leaving the disk unchanged; a successful
run replaces the content wholly; but a failed write leaves a partial prefix
of the new content, because the file was truncated before writing
(truncate-then-write, not atomic replace-on-success). -/
theorem claim10_io_failure_semantics (transform : String → Option String)
    (disk out : String) (writeOk : Bool) (written : Nat) :
    (∀ (w : Bool) (k : Nat), runScript transform false w k disk =
      RunResult.failed disk) ∧
    (transform disk = none →
      runScript transform true writeOk written disk = RunResult.failed disk) ∧
    (transform disk = some out →
      runScript transform true true written disk = RunResult.ok out) ∧
    (transform disk = some out →
      runScript transform true false written disk =
        RunResult.failed (String.mk (out.data.take written))) := by
  refine ⟨fun w k => rfl, ?_, ?_, ?_⟩ <;> intro h <;> simp [runScript, h]

theorem claim10_io_failure_semantics_witness :
    runScript updateRoutesTransform false true 0 "abc" =
      RunResult.failed "abc" ∧
    runScript (fun t => some (fixRoutesTransform t)) true false 1 "xyz" =
      RunResult.failed (String.mk ("xyz".data.take 1)) :=
  ⟨(claim10_io_failure_semantics updateRoutesTransform "abc" "" true 0).1 true 0,
   (claim10_io_failure_semantics (fun t => some (fixRoutesTransform t))
     "xyz" "xyz" false 1).2.2.2 (by decide)⟩
